import Mathlib

/-!
Verification of the value/type encoding layer of `mpz-circuits`
(`src/mpz-circuits/src/types.rs`): native-like values, wire-level
binary representations, and the conversions between them.
-/

namespace MpzCircuits

/-- A wire node handle: opaque identifier of one Boolean signal.
The `components` module of the repository provides it; here it is its id. -/
abbrev Node := Nat

/-- Modelled from the spec: the external node handle's index-shift operation
(the repository's `components` module is not part of the source under
verification; the spec describes an opaque, deterministic index-shift). -/
def Node.shift_left (n : Node) (offset : Nat) : Node := n - offset

/-- An ordered array of `w` node handles; the field of the per-width wire
types `Bit`, `U8`, ..., `U128` (`[Node<Feed>; $len]` in the source). -/
abbrev Wires (w : Nat) := Fin w → Node

/-- `Wires.shift_left`: shift every node handle (`$id::shift_left`). -/
def Wires.shift_left {w : Nat} (x : Wires w) (offset : Nat) : Wires w :=
  fun i => Node.shift_left (x i) offset

/-- `ValueType` from the source: a recursive shape descriptor. -/
inductive ValueType where
  | Bit : ValueType
  | U8 : ValueType
  | U16 : ValueType
  | U32 : ValueType
  | U64 : ValueType
  | U128 : ValueType
  | Array : ValueType → Nat → ValueType
deriving DecidableEq

/-- `TypeError` from the source. -/
inductive TypeError where
  | InvalidLength : (expected : Nat) → (actual : Nat) → TypeError
  | UnexpectedType : (expected : ValueType) → (actual : ValueType) → TypeError
deriving DecidableEq

/-- `ValueType::len`: length of the value type in bits. -/
def ValueType.len : ValueType → Nat
  | .Bit => 1
  | .U8 => 8
  | .U16 => 16
  | .U32 => 32
  | .U64 => 64
  | .U128 => 128
  | .Array ty n => ty.len * n

/-- `Value` from the source: concrete data.  The fixed-width unsigned
integers `u8`..`u128` are carried as `Nat`; a value of the Rust type
satisfies `v < 2 ^ w` for the width `w` of its variant. -/
inductive Value where
  | Bit : Bool → Value
  | U8 : Nat → Value
  | U16 : Nat → Value
  | U32 : Nat → Value
  | U64 : Nat → Value
  | U128 : Nat → Value
  | Array : List Value → Value

/-- `BinaryRepr` from the source: shaped wire data; each scalar variant
holds the per-width wire type's node array. -/
inductive BinaryRepr where
  | Bit : Wires 1 → BinaryRepr
  | U8 : Wires 8 → BinaryRepr
  | U16 : Wires 16 → BinaryRepr
  | U32 : Wires 32 → BinaryRepr
  | U64 : Wires 64 → BinaryRepr
  | U128 : Wires 128 → BinaryRepr
  | Array : List BinaryRepr → BinaryRepr

/-- `Value::value_type`.  The source reads `v[0]` of an array, which panics
on an empty array; a panic is modelled as `none`, and a panic inside the
recursive call propagates through `Option.map`. -/
def Value.value_type : Value → Option ValueType
  | .Bit _ => some .Bit
  | .U8 _ => some .U8
  | .U16 _ => some .U16
  | .U32 _ => some .U32
  | .U64 _ => some .U64
  | .U128 _ => some .U128
  | .Array [] => none
  | .Array (x :: xs) => (value_type x).map (fun t => .Array t (xs.length + 1))

/-- `BinaryRepr::value_type`, with the same panic-as-`none` convention. -/
def BinaryRepr.value_type : BinaryRepr → Option ValueType
  | .Bit _ => some .Bit
  | .U8 _ => some .U8
  | .U16 _ => some .U16
  | .U32 _ => some .U32
  | .U64 _ => some .U64
  | .U128 _ => some .U128
  | .Array [] => none
  | .Array (x :: xs) => (value_type x).map (fun t => .Array t (xs.length + 1))

mutual

/-- `BinaryRepr::len`: bits of the representation; arrays sum children. -/
def BinaryRepr.len : BinaryRepr → Nat
  | .Bit _ => 1
  | .U8 _ => 8
  | .U16 _ => 16
  | .U32 _ => 32
  | .U64 _ => 64
  | .U128 _ => 128
  | .Array v => lenList v

/-- Sum of the bit lengths of a list of representations
(`v.iter().map(len).sum()`). -/
def lenList : List BinaryRepr → Nat
  | [] => 0
  | x :: xs => x.len + lenList xs

end

/-- The flat node sequence of a wire array, LSB first (`.0.iter()`). -/
def wiresList {w : Nat} (x : Wires w) : List Node := List.ofFn x

mutual

/-- `BinaryRepr::iter`: the flat node-handle sequence in structural
left-to-right order. -/
def BinaryRepr.iter : BinaryRepr → List Node
  | .Bit v => wiresList v
  | .U8 v => wiresList v
  | .U16 v => wiresList v
  | .U32 v => wiresList v
  | .U64 v => wiresList v
  | .U128 v => wiresList v
  | .Array v => iterList v

/-- Flat node sequence of a list of representations (`flat_map`). -/
def iterList : List BinaryRepr → List Node
  | [] => []
  | x :: xs => x.iter ++ iterList xs

end

mutual

/-- `BinaryRepr::shift_left`: delegate to every contained node handle's
shift operation (the source mutates in place; here the result is
returned). -/
def BinaryRepr.shift_left : BinaryRepr → Nat → BinaryRepr
  | .Bit v, off => .Bit (v.shift_left off)
  | .U8 v, off => .U8 (v.shift_left off)
  | .U16 v, off => .U16 (v.shift_left off)
  | .U32 v, off => .U32 (v.shift_left off)
  | .U64 v, off => .U64 (v.shift_left off)
  | .U128 v, off => .U128 (v.shift_left off)
  | .Array v, off => .Array (shiftLeftList v off)

/-- `shift_left` mapped over a list of representations (`for_each`). -/
def shiftLeftList : List BinaryRepr → Nat → List BinaryRepr
  | [], _ => []
  | x :: xs, off => x.shift_left off :: shiftLeftList xs off

end

/-- Modelled from the spec: LSB-first bit sequence of a `w`-bit unsigned
integer (itybity's `into_lsb0_vec`; the itybity crate is external to the
repository). -/
def toLsb0 : Nat → Nat → List Bool
  | 0, _ => []
  | w + 1, v => decide (v % 2 = 1) :: toLsb0 w (v / 2)

/-- Modelled from the spec: reconstruct an unsigned integer from an
LSB-first bit sequence (itybity's `from_lsb0_iter`; callers pass it
exactly the width's number of bits). -/
def fromLsb0 : List Bool → Nat
  | [] => 0
  | b :: bs => (cond b 1 0) + 2 * fromLsb0 bs

mutual

/-- `impl IntoBits for Value`, `into_iter_lsb0`: LSB-first bit sequence;
nested arrays are flattened in structural order. -/
def Value.into_iter_lsb0 : Value → List Bool
  | .Bit b => [b]
  | .U8 v => toLsb0 8 v
  | .U16 v => toLsb0 16 v
  | .U32 v => toLsb0 32 v
  | .U64 v => toLsb0 64 v
  | .U128 v => toLsb0 128 v
  | .Array l => intoIterLsb0List l

/-- `flat_map` of `into_iter_lsb0` over array elements. -/
def intoIterLsb0List : List Value → List Bool
  | [] => []
  | v :: vs => v.into_iter_lsb0 ++ intoIterLsb0List vs

end

/-- `slice::chunks`: split into pieces of `w` elements, the last possibly
shorter.  Rust panics when `w = 0`; call sites below guard that case, so
the `w = 0` equation here is never relied upon. -/
def listChunks {α : Type} : Nat → List α → List (List α)
  | _, [] => []
  | 0, l => [l]
  | w + 1, a :: l => ((a :: l).take (w + 1)) :: listChunks (w + 1) ((a :: l).drop (w + 1))
termination_by _ l => l.length
decreasing_by simp; omega

/-- `<&[Node<Feed>] as TryInto<[Node<Feed>; w]>>`, applied only after the
length has been checked to be exactly `w`. -/
def toWires (w : Nat) (nodes : List Node) : Wires w :=
  fun i => nodes.getD i.val 0

mutual

/-- `ValueType::to_bin_repr`.  Panics (array chunking with a zero-width
element type, and `unwrap` of a failed recursive encoding) are modelled
as `none`. -/
def ValueType.to_bin_repr : ValueType → List Node → Option (Except TypeError BinaryRepr)
  | t, nodes =>
    if nodes.length ≠ t.len then
      some (.error (.InvalidLength t.len nodes.length))
    else
      match t with
      | .Bit => some (.ok (.Bit (toWires 1 nodes)))
      | .U8 => some (.ok (.U8 (toWires 8 nodes)))
      | .U16 => some (.ok (.U16 (toWires 16 nodes)))
      | .U32 => some (.ok (.U32 (toWires 32 nodes)))
      | .U64 => some (.ok (.U64 (toWires 64 nodes)))
      | .U128 => some (.ok (.U128 (toWires 128 nodes)))
      | .Array ty _ =>
        if ty.len = 0 then none
        else
          match toBinReprList ty (listChunks ty.len nodes) with
          | none => none
          | some rs => some (.ok (.Array rs))

/-- `chunks(ty.len()).map(|nodes| ty.to_bin_repr(nodes).unwrap())`:
a recursive failure or panic is a panic (`none`). -/
def toBinReprList : ValueType → List (List Node) → Option (List BinaryRepr)
  | _, [] => some []
  | ty, c :: cs =>
    match ty.to_bin_repr c with
    | some (.ok r) =>
      match toBinReprList ty cs with
      | none => none
      | some rs => some (r :: rs)
    | _ => none

end

mutual

/-- `BinaryRepr::from_bin_repr`: decode a bit sequence into a `Value`.
Panics (`v[0]` on an empty array, `chunks(0)`, and `unwrap` of a failed
recursive decode) are modelled as `none`. -/
def BinaryRepr.from_bin_repr : BinaryRepr → List Bool → Option (Except TypeError Value)
  | r, bits =>
    if bits.length ≠ r.len then
      some (.error (.InvalidLength r.len bits.length))
    else
      match r with
      | .Bit _ => some (.ok (.Bit (bits.getD 0 false)))
      | .U8 _ => some (.ok (.U8 (fromLsb0 (bits.take 8))))
      | .U16 _ => some (.ok (.U16 (fromLsb0 (bits.take 16))))
      | .U32 _ => some (.ok (.U32 (fromLsb0 (bits.take 32))))
      | .U64 _ => some (.ok (.U64 (fromLsb0 (bits.take 64))))
      | .U128 _ => some (.ok (.U128 (fromLsb0 (bits.take 128))))
      | .Array v =>
        match v with
        | [] => none
        | x :: _ =>
          if x.len = 0 then none
          else
            match fromBinReprList v (listChunks x.len bits) with
            | none => none
            | some vs => some (.ok (.Array vs))

/-- `v.iter().zip(bits.chunks(..)).map(|(v, bits)| v.from_bin_repr(bits).unwrap())`:
the zip stops at the shorter side; a recursive error or panic is a
panic (`none`). -/
def fromBinReprList : List BinaryRepr → List (List Bool) → Option (List Value)
  | [], _ => some []
  | _ :: _, [] => some []
  | r :: rs, c :: cs =>
    match r.from_bin_repr c with
    | some (.ok v) =>
      match fromBinReprList rs cs with
      | none => none
      | some vs => some (v :: vs)
    | _ => none

end

mutual

/-- `impl BitXor for Value`.  The error arm evaluates both operands'
`value_type`, which panics on an empty array; panics are `none`. -/
def Value.bitxor : Value → Value → Option (Except TypeError Value)
  | .Bit a, .Bit b => some (.ok (.Bit (a.xor b)))
  | .U8 a, .U8 b => some (.ok (.U8 (a ^^^ b)))
  | .U16 a, .U16 b => some (.ok (.U16 (a ^^^ b)))
  | .U32 a, .U32 b => some (.ok (.U32 (a ^^^ b)))
  | .U64 a, .U64 b => some (.ok (.U64 (a ^^^ b)))
  | .U128 a, .U128 b => some (.ok (.U128 (a ^^^ b)))
  | .Array a, .Array b =>
    match bitxorList a b with
    | none => none
    | some (.error e) => some (.error e)
    | some (.ok vs) => some (.ok (.Array vs))
  | a, b =>
    match a.value_type, b.value_type with
    | some e, some x => some (.error (.UnexpectedType e x))
    | _, _ => none

/-- `a.iter().zip(b.iter()).map(|(a, b)| a ^ b).collect::<Result<..>>()`:
zip truncates to the shorter operand; collect stops at the first error;
a panic propagates. -/
def bitxorList : List Value → List Value → Option (Except TypeError (List Value))
  | [], _ => some (.ok [])
  | _ :: _, [] => some (.ok [])
  | x :: xs, y :: ys =>
    match Value.bitxor x y with
    | none => none
    | some (.error e) => some (.error e)
    | some (.ok v) =>
      match bitxorList xs ys with
      | none => none
      | some (.error e) => some (.error e)
      | some (.ok vs) => some (.ok (v :: vs))

end

/-- Convert each chunk with `try_into().unwrap()`: a chunk whose length
is not exactly `w` panics (`none`). -/
def chunksToWires (w : Nat) : List (List Node) → Option (List (Wires w))
  | [] => some []
  | c :: cs =>
    if c.length = w then
      match chunksToWires w cs with
      | none => none
      | some l => some (toWires w c :: l)
    else none

/-- `impl ToBinaryRepr for Vec<$ty>`, `new_bin_repr`, for element bit
width `w`: the source compares the node count against a rounded-up
element count.  A failing `try_into().unwrap()` on a short chunk is a
panic (`none`). -/
def vec_new_bin_repr (w : Nat) (nodes : List Node) : Option (Except TypeError (List (Wires w))) :=
  let expected_len := nodes.length / w + (if nodes.length % w ≠ 0 then 1 else 0)
  if nodes.length ≠ expected_len then
    some (.error (.InvalidLength expected_len nodes.length))
  else
    match chunksToWires w (listChunks w nodes) with
    | none => none
    | some l => some (.ok l)

/-- `from_be_bytes` from `impl_convert_bytes`, for a scalar of `M` bytes:
`$ty(std::array::from_fn(|i| bytes[$len - (i / 8) - 1].0[i % 8]))`. -/
def from_be_bytes (M : Nat) (bytes : Fin M → Wires 8) : Wires (8 * M) :=
  fun i => bytes ⟨M - i.val / 8 - 1, by have := i.isLt; omega⟩ ⟨i.val % 8, by omega⟩

/-- `to_be_bytes`: `from_fn(|i| U8(from_fn(|j| self.0[($len - i - 1) * 8 + j])))`. -/
def to_be_bytes (M : Nat) (x : Wires (8 * M)) : Fin M → Wires 8 :=
  fun i j => x ⟨(M - i.val - 1) * 8 + j.val, by have := i.isLt; have := j.isLt; omega⟩

/-- `from_le_bytes`: `$ty(std::array::from_fn(|i| bytes[i / 8].0[i % 8]))`. -/
def from_le_bytes (M : Nat) (bytes : Fin M → Wires 8) : Wires (8 * M) :=
  fun i => bytes ⟨i.val / 8, by have := i.isLt; omega⟩ ⟨i.val % 8, by omega⟩

/-- `to_le_bytes`: `from_fn(|i| U8(from_fn(|j| self.0[i * 8 + j])))`. -/
def to_le_bytes (M : Nat) (x : Wires (8 * M)) : Fin M → Wires 8 :=
  fun i j => x ⟨i.val * 8 + j.val, by have := i.isLt; have := j.isLt; omega⟩

mutual

/-- Shape-compatibility of two `Value`s: the same variant at every
position and equal array lengths at every level. -/
def sameShape : Value → Value → Bool
  | .Bit _, .Bit _ => true
  | .U8 _, .U8 _ => true
  | .U16 _, .U16 _ => true
  | .U32 _, .U32 _ => true
  | .U64 _, .U64 _ => true
  | .U128 _, .U128 _ => true
  | .Array a, .Array b => sameShapeList a b
  | _, _ => false

/-- Pairwise `sameShape` on lists of equal length. -/
def sameShapeList : List Value → List Value → Bool
  | [], [] => true
  | x :: xs, y :: ys => sameShape x y && sameShapeList xs ys
  | _, _ => false

end

/-- Whether the top-level variants of two `Value`s coincide. -/
def sameVariant : Value → Value → Bool
  | .Bit _, .Bit _ => true
  | .U8 _, .U8 _ => true
  | .U16 _, .U16 _ => true
  | .U32 _, .U32 _ => true
  | .U64 _, .U64 _ => true
  | .U128 _, .U128 _ => true
  | .Array _, .Array _ => true
  | _, _ => false

/-! ### Helper lemmas -/

theorem toLsb0_length (w v : Nat) : (toLsb0 w v).length = w := by
  induction w generalizing v with
  | zero => rfl
  | succ w ih => simp [toLsb0, ih]

theorem fromLsb0_toLsb0 (w v : Nat) : fromLsb0 (toLsb0 w v) = v % 2 ^ w := by
  induction w generalizing v with
  | zero => simp [toLsb0, fromLsb0, Nat.mod_one]
  | succ w ih =>
    rw [pow_succ, Nat.mul_comm, Nat.mod_mul]
    simp only [toLsb0, fromLsb0, ih]
    rcases Nat.mod_two_eq_zero_or_one v with h | h <;> simp [h]

theorem listChunks_flatten {α : Type} (w : Nat) (l : List α) :
    (listChunks w l).flatten = l := by
  match w, l with
  | _, [] => simp [listChunks]
  | 0, a :: l => simp [listChunks]
  | w + 1, a :: l =>
    have ih := listChunks_flatten (w + 1) ((a :: l).drop (w + 1))
    rw [listChunks]
    simp only [List.flatten_cons, ih]
    exact List.take_append_drop _ _
termination_by l.length
decreasing_by simp; omega

theorem shiftLeftList_length (l : List BinaryRepr) (k : Nat) :
    (shiftLeftList l k).length = l.length := by
  induction l with
  | nil => rfl
  | cons x xs ih => simp [shiftLeftList, ih]

mutual

theorem shift_left_len (r : BinaryRepr) (k : Nat) :
    (r.shift_left k).len = r.len := by
  match r with
  | .Bit v | .U8 v | .U16 v | .U32 v | .U64 v | .U128 v => rfl
  | .Array l => simpa [BinaryRepr.shift_left, BinaryRepr.len] using shiftLeftList_len l k

theorem shiftLeftList_len (l : List BinaryRepr) (k : Nat) :
    lenList (shiftLeftList l k) = lenList l := by
  match l with
  | [] => rfl
  | x :: xs =>
    simp [shiftLeftList, lenList, shift_left_len x k, shiftLeftList_len xs k]

end

theorem shift_left_value_type (r : BinaryRepr) (k : Nat) :
    (r.shift_left k).value_type = r.value_type := by
  match r with
  | .Bit v | .U8 v | .U16 v | .U32 v | .U64 v | .U128 v => rfl
  | .Array [] => rfl
  | .Array (x :: xs) =>
    have ih := shift_left_value_type x k
    simp [BinaryRepr.shift_left, shiftLeftList, BinaryRepr.value_type, ih,
      shiftLeftList_length]

theorem wiresList_shift {w : Nat} (v : Wires w) (k : Nat) :
    wiresList (v.shift_left k) = (wiresList v).map (fun n => Node.shift_left n k) := by
  simp [wiresList, Wires.shift_left, List.map_ofFn]
  rfl

mutual

theorem shift_left_iter (r : BinaryRepr) (k : Nat) :
    (r.shift_left k).iter = r.iter.map (fun n => Node.shift_left n k) := by
  match r with
  | .Bit v | .U8 v | .U16 v | .U32 v | .U64 v | .U128 v =>
    exact wiresList_shift v k
  | .Array l => simpa [BinaryRepr.shift_left, BinaryRepr.iter] using shiftLeftList_iter l k

theorem shiftLeftList_iter (l : List BinaryRepr) (k : Nat) :
    iterList (shiftLeftList l k) = (iterList l).map (fun n => Node.shift_left n k) := by
  match l with
  | [] => rfl
  | x :: xs =>
    simp [shiftLeftList, iterList, shift_left_iter x k, shiftLeftList_iter xs k]

end

/-! ### Claims -/

/-- **C5.** For every supported byte count `M` (so every width `8 * M`,
covering `W ∈ {8, 16, 32, 64, 128}`) and every `W`-bit wire value `x`,
`from_be_bytes (to_be_bytes x) = x` and
`from_le_bytes (to_le_bytes x) = x`, where equality is at node-identity
level (every node handle back at its original bit position). -/
theorem c5_bytes_roundtrip (M : Nat) (x : Wires (8 * M)) :
    from_be_bytes M (to_be_bytes M x) = x ∧ from_le_bytes M (to_le_bytes M x) = x := by
  constructor <;> funext i <;>
    · show x ⟨_, _⟩ = x i
      congr 1
      apply Fin.ext
      have hi := i.isLt
      simp only []
      omega

/-- **C6.** For a `W = 8 * M`-bit wire value, `to_be_bytes` places into
output byte `i` (0 = most significant) exactly the node handles at bit
positions `[(M - i - 1) * 8, (M - i) * 8)` of the original array, each
byte keeping LSB-first internal order, and `to_le_bytes` places byte `i`
at bit positions `[i * 8, (i + 1) * 8)`; in particular a 16-bit value's
`to_be_bytes` puts bit positions `[8, 16)` into byte 0 and `[0, 8)` into
byte 1. -/
theorem c6_byte_placement (M : Nat) (x : Wires (8 * M)) (i : Fin M) :
    wiresList (to_be_bytes M x i)
      = ((wiresList x).drop ((M - i.val - 1) * 8)).take 8 ∧
    wiresList (to_le_bytes M x i)
      = ((wiresList x).drop (i.val * 8)).take 8 := by
  have hi := i.isLt
  constructor <;>
    · apply List.ext_getElem
      · simp [wiresList, List.length_ofFn]
        omega
      · intro j h1 h2
        simp only [wiresList] at h1 ⊢
        rw [List.getElem_take, List.getElem_drop]
        rw [List.getElem_ofFn, List.getElem_ofFn]
        rfl

/-- **C8.** For every `BinaryRepr` `r` and offset `k`, `r.shift_left k`
leaves the bit length `r.len` and the inferred shape `r.value_type`
unchanged, and every contained node handle is replaced by applying the
node handle's own shift operation with offset `k` (the flat node
sequence is mapped pointwise); nothing else about `r` changes. -/
theorem c8_shift_left_frame (r : BinaryRepr) (k : Nat) :
    (r.shift_left k).len = r.len ∧
    (r.shift_left k).value_type = r.value_type ∧
    (r.shift_left k).iter = r.iter.map (fun n => Node.shift_left n k) :=
  ⟨shift_left_len r k, shift_left_value_type r k, shift_left_iter r k⟩

/-- **C9.** Shape inference recurses into the first element only: for a
non-empty `Array`, `value_type` returns `Array t n` where `t` is the
recursively inferred shape of the first element and `n` the number of
elements; for an empty `Array` (of `BinaryRepr` or of `Value`) the
operation is partial and returns no value (`none`), since the source
reads `v[0]`. -/
theorem c9_value_type_empty_array :
    (∀ (x : BinaryRepr) (xs : List BinaryRepr),
      BinaryRepr.value_type (.Array (x :: xs))
        = (BinaryRepr.value_type x).map (fun t => ValueType.Array t (xs.length + 1))) ∧
    BinaryRepr.value_type (.Array []) = none ∧
    (∀ (x : Value) (xs : List Value),
      Value.value_type (.Array (x :: xs))
        = (Value.value_type x).map (fun t => ValueType.Array t (xs.length + 1))) ∧
    Value.value_type (.Array []) = none :=
  ⟨fun _ _ => rfl, rfl, fun _ _ => rfl, rfl⟩

theorem decode_scalar_aux (w v : Nat) (h : v < 2 ^ w) :
    fromLsb0 ((toLsb0 w v).take w) = v := by
  rw [List.take_of_length_le (by simp [toLsb0_length]), fromLsb0_toLsb0,
    Nat.mod_eq_of_lt h]

/-- **C1.** For every scalar type `T ∈ {bool, u8, u16, u32, u64, u128}`
and every value `v` of type `T`, decoding the LSB-first bit sequence of
the `Value` wrapping `v` (via `into_iter_lsb0`) with `from_bin_repr` on
a `BinaryRepr` of the matching scalar variant returns `Ok` of a `Value`
equal to the original. -/
theorem c1_scalar_lsb0_roundtrip :
    (∀ (n : Wires 1) (b : Bool),
      (BinaryRepr.Bit n).from_bin_repr (Value.Bit b).into_iter_lsb0
        = some (.ok (.Bit b))) ∧
    (∀ (n : Wires 8) (v : Nat), v < 2 ^ 8 →
      (BinaryRepr.U8 n).from_bin_repr (Value.U8 v).into_iter_lsb0
        = some (.ok (.U8 v))) ∧
    (∀ (n : Wires 16) (v : Nat), v < 2 ^ 16 →
      (BinaryRepr.U16 n).from_bin_repr (Value.U16 v).into_iter_lsb0
        = some (.ok (.U16 v))) ∧
    (∀ (n : Wires 32) (v : Nat), v < 2 ^ 32 →
      (BinaryRepr.U32 n).from_bin_repr (Value.U32 v).into_iter_lsb0
        = some (.ok (.U32 v))) ∧
    (∀ (n : Wires 64) (v : Nat), v < 2 ^ 64 →
      (BinaryRepr.U64 n).from_bin_repr (Value.U64 v).into_iter_lsb0
        = some (.ok (.U64 v))) ∧
    (∀ (n : Wires 128) (v : Nat), v < 2 ^ 128 →
      (BinaryRepr.U128 n).from_bin_repr (Value.U128 v).into_iter_lsb0
        = some (.ok (.U128 v))) := by
  refine ⟨fun n b => rfl, fun n v h => ?_, fun n v h => ?_, fun n v h => ?_,
    fun n v h => ?_, fun n v h => ?_⟩ <;>
    simp [Value.into_iter_lsb0, BinaryRepr.from_bin_repr, BinaryRepr.len, toLsb0_length,
      decode_scalar_aux _ v h]

/-- Witness for C1: decoding the 8 bits of `u8` value 177 yields
`Value::U8(177)`. -/
theorem c1_scalar_lsb0_roundtrip_witness :
    (BinaryRepr.U8 (fun _ => 0)).from_bin_repr (Value.U8 177).into_iter_lsb0
      = some (.ok (.U8 177)) :=
  c1_scalar_lsb0_roundtrip.2.1 (fun _ => 0) 177 (by decide)

theorem to_bin_repr_invalid (t : ValueType) (nodes : List Node)
    (h : nodes.length ≠ t.len) :
    t.to_bin_repr nodes = some (.error (.InvalidLength t.len nodes.length)) := by
  cases t <;> simp [ValueType.len] at h ⊢ <;>
    simp [ValueType.to_bin_repr, ValueType.len, h]

theorem to_bin_repr_not_error (t : ValueType) (nodes : List Node)
    (h : nodes.length = t.len) (e : TypeError) :
    t.to_bin_repr nodes ≠ some (.error e) := by
  cases t <;> simp [ValueType.len] at h <;>
    simp [ValueType.to_bin_repr, ValueType.len, h]
  split <;> simp_all

mutual

theorem to_bin_repr_ok_len (t : ValueType) (nodes : List Node) (r : BinaryRepr)
    (h : t.to_bin_repr nodes = some (.ok r)) :
    r.len = t.len ∧ nodes.length = t.len := by
  by_cases hl : nodes.length = t.len
  · refine ⟨?_, hl⟩
    match t with
    | .Bit | .U8 | .U16 | .U32 | .U64 | .U128 =>
      simp [ValueType.len] at hl
      simp [ValueType.to_bin_repr, ValueType.len, hl] at h
      rw [← h]
      rfl
    | .Array ty n =>
      simp [ValueType.len] at hl
      simp [ValueType.to_bin_repr, ValueType.len, hl] at h
      obtain ⟨hty0, hm⟩ := h
      split at hm
      · exact absurd hm (by simp)
      · rename_i rs hrs
        simp only [Option.some.injEq, Except.ok.injEq] at hm
        have hsum := toBinReprList_ok_len ty _ rs hrs
        rw [← hm]
        show lenList rs = _
        rw [hsum, ← List.length_flatten, listChunks_flatten]
        simp [ValueType.len, hl]
  · exact absurd h (by simp [to_bin_repr_invalid t nodes hl])
termination_by (sizeOf t, 0)

theorem toBinReprList_ok_len (ty : ValueType) (cs : List (List Node)) (rs : List BinaryRepr)
    (h : toBinReprList ty cs = some rs) :
    lenList rs = (cs.map List.length).sum := by
  match cs with
  | [] =>
    simp [toBinReprList] at h
    subst h
    rfl
  | c :: cs2 =>
    simp only [toBinReprList] at h
    split at h
    · rename_i r hr
      split at h
      · exact absurd h (by simp)
      · rename_i rs2 hrs2
        simp only [Option.some.injEq] at h
        have h1 := to_bin_repr_ok_len ty c r hr
        have h2 := toBinReprList_ok_len ty cs2 rs2 hrs2
        rw [← h]
        simp [lenList, h2, h1.1, ← h1.2]
    · exact absurd h (by simp)
termination_by (sizeOf ty, sizeOf cs + 1)

end

/-- **C2.** The claim states that for `Vec<T>` with element bit width `w`,
`new_bin_repr(nodes)` succeeds exactly when `nodes.len()` is a whole
multiple of `w`; the code instead compares `nodes.len()` against a
rounded-up element count (different units), so for `Vec<u8>` a slice of
8 nodes — one whole element — is rejected with
`InvalidLength{expected: 1, actual: 8}`. -/
theorem c2_vec_new_bin_repr_defect :
    vec_new_bin_repr 8 (List.replicate 8 0)
      = some (.error (.InvalidLength 1 8)) := rfl

/-- **C3.** For every `ValueType` `t` and node slice, `to_bin_repr`
returns `Err(InvalidLength{expected: t.len(), actual: nodes.len()})` iff
`nodes.len() ≠ t.len()`, and whenever it returns `Ok(r)` the result
satisfies `r.len() == t.len() == nodes.len()`. -/
theorem c3_to_bin_repr_length (t : ValueType) (nodes : List Node) :
    (t.to_bin_repr nodes = some (.error (.InvalidLength t.len nodes.length))
      ↔ nodes.length ≠ t.len) ∧
    ∀ r, t.to_bin_repr nodes = some (.ok r) →
      r.len = t.len ∧ t.len = nodes.length := by
  refine ⟨⟨fun h => ?_, fun h => to_bin_repr_invalid t nodes h⟩, fun r h => ?_⟩
  · intro hl
    exact to_bin_repr_not_error t nodes hl _ h
  · obtain ⟨h1, h2⟩ := to_bin_repr_ok_len t nodes r h
    exact ⟨h1, h2.symm⟩

/-- Witness for C3: a `u8` type rejects a 7-node slice with
`InvalidLength{expected: 8, actual: 7}`, and accepts an 8-node slice
with a representation of 8 bits. -/
theorem c3_to_bin_repr_length_witness :
    ValueType.U8.to_bin_repr (List.replicate 7 0)
      = some (.error (.InvalidLength 8 7)) :=
  (c3_to_bin_repr_length .U8 (List.replicate 7 0)).1.mpr (by decide)

theorem sameShapeList_spec (xs ys : List Value) (h : sameShapeList xs ys = true) :
    xs.length = ys.length ∧ ∀ p ∈ xs.zip ys, sameShape p.1 p.2 = true := by
  induction xs generalizing ys with
  | nil => cases ys with
    | nil => simp
    | cons y ys2 => simp [sameShapeList] at h
  | cons x xs2 ih =>
    cases ys with
    | nil => simp [sameShapeList] at h
    | cons y ys2 =>
      simp only [sameShapeList, Bool.and_eq_true] at h
      obtain ⟨h1, h2⟩ := h
      obtain ⟨hl, hp⟩ := ih ys2 h2
      refine ⟨by simp [hl], ?_⟩
      intro p hp2
      simp only [List.zip_cons_cons, List.mem_cons] at hp2
      rcases hp2 with rfl | hp2
      · exact h1
      · exact hp p hp2

mutual

theorem xor_ok_of_sameShape (a b : Value) (h : sameShape a b = true) :
    ∃ v, Value.bitxor a b = some (.ok v) := by
  cases a <;> cases b <;> simp [sameShape] at h <;> try exact ⟨_, rfl⟩
  case Array.Array a1 b1 =>
    obtain ⟨zs, hz, _, _⟩ := xorList_ok_of_zip a1 b1 (sameShapeList_spec a1 b1 h).2
    exact ⟨.Array zs, by simp [Value.bitxor, hz]⟩
termination_by (sizeOf a, 0)

theorem xorList_ok_of_zip (xs ys : List Value)
    (h : ∀ p ∈ xs.zip ys, sameShape p.1 p.2 = true) :
    ∃ zs, bitxorList xs ys = some (.ok zs) ∧ zs.length = min xs.length ys.length ∧
      ∀ (i : Nat) (h1 : i < xs.length) (h2 : i < ys.length) (h3 : i < zs.length),
        Value.bitxor (xs.get ⟨i, h1⟩) (ys.get ⟨i, h2⟩) = some (.ok (zs.get ⟨i, h3⟩)) := by
  match xs, ys with
  | [], ys => exact ⟨[], rfl, by simp, by intro i h1; simp at h1⟩
  | x :: xs2, [] => exact ⟨[], rfl, by simp, by intro i h1 h2; simp at h2⟩
  | x :: xs2, y :: ys2 =>
    have hxy := h (x, y) (by simp)
    obtain ⟨v, hv⟩ := xor_ok_of_sameShape x y hxy
    obtain ⟨zs2, hz, hlen, hget⟩ := xorList_ok_of_zip xs2 ys2 (by
      intro p hp
      exact h p (by simp [hp]))
    refine ⟨v :: zs2, by simp [bitxorList, hv, hz], by simp [hlen]; omega, ?_⟩
    intro i h1 h2 h3
    match i with
    | 0 => simpa using hv
    | i + 1 =>
      simpa using hget i (by simpa using h1) (by simpa using h2) (by simpa using h3)
termination_by (sizeOf xs, 1)

end

mutual

theorem xor_ok_comm (a b v : Value) (h : Value.bitxor a b = some (.ok v)) :
    Value.bitxor b a = some (.ok v) := by
  cases a <;> cases b
  case Bit.Bit x y =>
    simp [Value.bitxor] at h ⊢
    rw [← h]
    simp [Bool.xor_comm]
  case U8.U8 x y =>
    simp [Value.bitxor] at h ⊢
    rw [← h]
    simp [Nat.xor_comm]
  case U16.U16 x y =>
    simp [Value.bitxor] at h ⊢
    rw [← h]
    simp [Nat.xor_comm]
  case U32.U32 x y =>
    simp [Value.bitxor] at h ⊢
    rw [← h]
    simp [Nat.xor_comm]
  case U64.U64 x y =>
    simp [Value.bitxor] at h ⊢
    rw [← h]
    simp [Nat.xor_comm]
  case U128.U128 x y =>
    simp [Value.bitxor] at h ⊢
    rw [← h]
    simp [Nat.xor_comm]
  case Array.Array a1 b1 =>
    simp only [Value.bitxor] at h ⊢
    split at h
    · exact absurd h (by simp)
    · exact absurd h (by simp)
    · rename_i vs hvs
      rw [xorList_ok_comm a1 b1 vs hvs]
      simpa using h
  all_goals
    simp only [Value.bitxor, Value.value_type] at h
    first
    | (split at h <;> simp at h)
    | simp at h
termination_by (sizeOf a, 0)

theorem xorList_ok_comm (xs ys zs : List Value) (h : bitxorList xs ys = some (.ok zs)) :
    bitxorList ys xs = some (.ok zs) := by
  match xs, ys with
  | [], [] => exact h
  | [], y :: ys2 =>
    simp only [bitxorList] at h ⊢
    exact h
  | x :: xs2, [] =>
    simp only [bitxorList] at h ⊢
    exact h
  | x :: xs2, y :: ys2 =>
    simp only [bitxorList] at h ⊢
    split at h
    · exact absurd h (by simp)
    · exact absurd h (by simp)
    · rename_i v hv
      rw [xor_ok_comm x y v hv]
      split at h
      · exact absurd h (by simp)
      · exact absurd h (by simp)
      · rename_i vs hvs
        rw [xorList_ok_comm xs2 ys2 vs hvs]
        exact h
termination_by (sizeOf xs, 1)

end

/-- **C4.** XOR of two `Value::Array` operands whose element shapes are
pairwise compatible but whose lengths differ returns `Ok` of an `Array`
of the shorter length: corresponding elements are XOR-ed pairwise over
the shorter length, the remaining elements of the longer operand are
silently dropped, and no error is raised. -/
theorem c4_array_xor_truncates (xs ys : List Value)
    (hshape : ∀ p ∈ xs.zip ys, sameShape p.1 p.2 = true)
    (_hne : xs.length ≠ ys.length) :
    ∃ zs, Value.bitxor (.Array xs) (.Array ys) = some (.ok (.Array zs)) ∧
      zs.length = min xs.length ys.length ∧
      ∀ (i : Nat) (h1 : i < xs.length) (h2 : i < ys.length) (h3 : i < zs.length),
        Value.bitxor (xs.get ⟨i, h1⟩) (ys.get ⟨i, h2⟩) = some (.ok (zs.get ⟨i, h3⟩)) := by
  obtain ⟨zs, hz, hlen, hget⟩ := xorList_ok_of_zip xs ys hshape
  exact ⟨zs, by simp [Value.bitxor, hz], hlen, hget⟩

/-- Witness for C4: a 1-element array XOR-ed with a 2-element array of
bits yields `Ok` of a 1-element array, the extra element dropped. -/
theorem c4_array_xor_truncates_witness :
    ∃ zs, Value.bitxor (.Array [.Bit true]) (.Array [.Bit false, .Bit true])
        = some (.ok (.Array zs)) ∧
      zs.length = min 1 2 ∧
      ∀ (i : Nat) (h1 : i < 1) (h2 : i < 2) (h3 : i < zs.length),
        Value.bitxor ([Value.Bit true].get ⟨i, h1⟩)
            ([Value.Bit false, Value.Bit true].get ⟨i, h2⟩)
          = some (.ok (zs.get ⟨i, h3⟩)) :=
  c4_array_xor_truncates [.Bit true] [.Bit false, .Bit true]
    (by intro p hp; simp at hp; rw [hp]; rfl) (by decide)

/-- **C7.** XOR of two `Value`s of the same scalar variant returns `Ok`
of the bitwise XOR of the native values; XOR of two `Value`s whose
top-level variants differ returns
`Err(UnexpectedType{expected, actual})` where `expected` is the left
operand's value type and `actual` the right operand's (whenever those
value types are defined). -/
theorem c7_xor_scalar_and_unexpected_type :
    (∀ x y : Bool, Value.bitxor (.Bit x) (.Bit y) = some (.ok (.Bit (x.xor y)))) ∧
    (∀ x y : Nat, Value.bitxor (.U8 x) (.U8 y) = some (.ok (.U8 (x ^^^ y)))) ∧
    (∀ x y : Nat, Value.bitxor (.U16 x) (.U16 y) = some (.ok (.U16 (x ^^^ y)))) ∧
    (∀ x y : Nat, Value.bitxor (.U32 x) (.U32 y) = some (.ok (.U32 (x ^^^ y)))) ∧
    (∀ x y : Nat, Value.bitxor (.U64 x) (.U64 y) = some (.ok (.U64 (x ^^^ y)))) ∧
    (∀ x y : Nat, Value.bitxor (.U128 x) (.U128 y) = some (.ok (.U128 (x ^^^ y)))) ∧
    (∀ (a b : Value) (e x : ValueType), sameVariant a b = false →
      a.value_type = some e → b.value_type = some x →
      Value.bitxor a b = some (.error (.UnexpectedType e x))) := by
  refine ⟨fun x y => rfl, fun x y => rfl, fun x y => rfl, fun x y => rfl,
    fun x y => rfl, fun x y => rfl, ?_⟩
  intro a b e x hsv ha hb
  cases a <;> cases b <;> simp [sameVariant] at hsv <;>
    simp_all [Value.bitxor, Value.value_type]

/-- Witness for C7: `U8(12) ^ U8(5) == Ok(U8(9))` and
`Bit(true) ^ U8(1)` fails with `UnexpectedType{Bit, U8}`. -/
theorem c7_xor_scalar_and_unexpected_type_witness :
    Value.bitxor (.U8 12) (.U8 5) = some (.ok (.U8 9)) ∧
    Value.bitxor (.Bit true) (.U8 1) = some (.error (.UnexpectedType .Bit .U8)) :=
  ⟨by rw [c7_xor_scalar_and_unexpected_type.2.1 12 5]; rfl,
    c7_xor_scalar_and_unexpected_type.2.2.2.2.2.2 (.Bit true) (.U8 1) .Bit .U8 rfl rfl rfl⟩

/-- **C10.** For every two `Value`s of identical recursive shape the XOR
succeeds; XOR on `Value`s is commutative whenever it succeeds; and for
arbitrary operands `a ^ b` is `Ok` iff `b ^ a` is `Ok`. -/
theorem c10_xor_commutative (a b : Value) :
    (sameShape a b = true → ∃ v, Value.bitxor a b = some (.ok v)) ∧
    (∀ v, Value.bitxor a b = some (.ok v) → Value.bitxor b a = some (.ok v)) ∧
    ((∃ v, Value.bitxor a b = some (.ok v)) ↔ ∃ v, Value.bitxor b a = some (.ok v)) :=
  ⟨xor_ok_of_sameShape a b, fun v => xor_ok_comm a b v,
    ⟨fun ⟨v, hv⟩ => ⟨v, xor_ok_comm a b v hv⟩, fun ⟨v, hv⟩ => ⟨v, xor_ok_comm b a v hv⟩⟩⟩

/-- Witness for C10: commutativity at `U8(3) ^ U8(5)`. -/
theorem c10_xor_commutative_witness :
    Value.bitxor (.U8 5) (.U8 3) = some (.ok (.U8 6)) :=
  (c10_xor_commutative (.U8 3) (.U8 5)).2.1 (.U8 6) rfl

end MpzCircuits
